import Mathlib

/-!
Verification development for the tui-dungeon-raid terminal front end
(`src/main.rs`).  The definitions below are a shallow embedding of the
coordinate-mapping, cursor state machine, chain-path renderer and input
dispatcher of that file.  `u16` screen coordinates are modelled as `Nat`
(with explicit wrapping through `wrap16` at the one place a runtime
subtraction could wrap); `isize` values are modelled as `Int`.

`DEFAULT_BOARD_WIDTH` / `DEFAULT_BOARD_HEIGHT` are constants imported by
the source from the external `dungeon_raid_core` crate; they are modelled
as parameters `W` / `H` of the definitions (the concrete scenarios fix
them at 8 and 6, the values the specification's scenarios use).  The Rust
constant expression `PLAYING_CURSOR_MAX_RIGHT - PLAYING_CURSOR_MOVE`
requires `2*W - 1 ≥ 2` to compile (const-eval underflow is rejected), so
theorems about playing-mode movement assume `2 ≤ W` and `2 ≤ H`.
-/

/-- `enum GameState` (src/main.rs:63-67). -/
inductive GameState
  | playing
  | choosingImprovement (numChoices : Nat)
deriving DecidableEq, Repr

/-- `enum CursorMove` (src/main.rs:69-75). -/
inductive CursorMove
  | up
  | right
  | down
  | left
deriving DecidableEq, Repr

/-- `const PLAYING_CURSOR_MOVE: u16 = 2` (src/main.rs:77). -/
def PLAYING_CURSOR_MOVE : Nat := 2

/-- `const PLAYING_CURSOR_MAX_UP: u16 = 0` (src/main.rs:78). -/
def PLAYING_CURSOR_MAX_UP : Nat := 0

/-- `const PLAYING_CURSOR_MAX_LEFT: u16 = 0` (src/main.rs:81). -/
def PLAYING_CURSOR_MAX_LEFT : Nat := 0

/-- `const PLAYING_CURSOR_MAX_RIGHT` (src/main.rs:79), with the board
width `W` a parameter standing for `DEFAULT_BOARD_WIDTH`. -/
def PLAYING_CURSOR_MAX_RIGHT (W : Nat) : Nat :=
  PLAYING_CURSOR_MAX_LEFT + W * 2 - 1

/-- `const PLAYING_CURSOR_MAX_DOWN` (src/main.rs:80), with the board
height `H` a parameter standing for `DEFAULT_BOARD_HEIGHT`. -/
def PLAYING_CURSOR_MAX_DOWN (H : Nat) : Nat :=
  PLAYING_CURSOR_MAX_UP + H * 2 - 1

/-- `const CHOOSING_IMPROVEMENT_CURSOR_MOVE: u16 = 1` (src/main.rs:82). -/
def CHOOSING_IMPROVEMENT_CURSOR_MOVE : Nat := 1

/-- `const CHOOSING_IMPROVEMENT_CURSOR_MAX_UP: u16 = 1` (src/main.rs:83). -/
def CHOOSING_IMPROVEMENT_CURSOR_MAX_UP : Nat := 1

/-- Wrapping `u16` arithmetic: the value of an `Int`-valued expression
reduced modulo `2^16`, as release-mode Rust computes a chain of `u16`
additions and subtractions. -/
def wrap16 (i : Int) : Nat := (i % 65536).toNat

/-- `fn move_cursor` (src/main.rs:85-141), as a pure function of the
cursor position read from the terminal (the terminal cursor is set to the
active mode's stored position on every draw, src/main.rs:558).  The
`unreachable!` arm for horizontal moves in `ChoosingImprovement` mode is
modelled as `none`; every other path returns `some` of the new position.
The guard of the choosing-mode `Down` arm performs runtime `u16`
arithmetic on `num_choices as u16`, modelled with `wrap16`; the playing
guards only subtract compile-time constants. -/
def move_cursor (W H : Nat) (cursor_pos : Nat × Nat) (m : CursorMove)
    (gs : GameState) : Option (Nat × Nat) :=
  match gs with
  | GameState.playing =>
    match m with
    | CursorMove.up =>
      if cursor_pos.2 ≥ PLAYING_CURSOR_MAX_UP + PLAYING_CURSOR_MOVE then
        some (cursor_pos.1, cursor_pos.2 - PLAYING_CURSOR_MOVE)
      else some cursor_pos
    | CursorMove.right =>
      if cursor_pos.1 ≤ PLAYING_CURSOR_MAX_RIGHT W - PLAYING_CURSOR_MOVE then
        some (cursor_pos.1 + PLAYING_CURSOR_MOVE, cursor_pos.2)
      else some cursor_pos
    | CursorMove.down =>
      if cursor_pos.2 ≤ PLAYING_CURSOR_MAX_DOWN H - PLAYING_CURSOR_MOVE then
        some (cursor_pos.1, cursor_pos.2 + PLAYING_CURSOR_MOVE)
      else some cursor_pos
    | CursorMove.left =>
      if cursor_pos.1 ≥ PLAYING_CURSOR_MAX_LEFT + PLAYING_CURSOR_MOVE then
        some (cursor_pos.1 - PLAYING_CURSOR_MOVE, cursor_pos.2)
      else some cursor_pos
  | GameState.choosingImprovement num_choices =>
    match m with
    | CursorMove.up =>
      if cursor_pos.2 ≥ CHOOSING_IMPROVEMENT_CURSOR_MAX_UP
          + CHOOSING_IMPROVEMENT_CURSOR_MOVE then
        some (cursor_pos.1, cursor_pos.2 - CHOOSING_IMPROVEMENT_CURSOR_MOVE)
      else some cursor_pos
    | CursorMove.down =>
      if cursor_pos.2 ≤ wrap16 ((CHOOSING_IMPROVEMENT_CURSOR_MAX_UP : Int)
          + (num_choices % 65536 : Nat) - 1
          - (CHOOSING_IMPROVEMENT_CURSOR_MOVE : Int)) then
        some (cursor_pos.1, cursor_pos.2 + CHOOSING_IMPROVEMENT_CURSOR_MOVE)
      else some cursor_pos
    | _ => none

/-- `fn tile_position_from_cursor_position` (src/main.rs:143-149).
`TilePosition::new(row, col)` is modelled as the pair `(row, col)` of
`Int` (the crate stores `isize`). -/
def tile_position_from_cursor_position (cursor_position : Nat × Nat) :
    Int × Int :=
  (((cursor_position.2 - PLAYING_CURSOR_MAX_UP) / 2 : Nat),
   ((cursor_position.1 - PLAYING_CURSOR_MAX_LEFT) / 2 : Nat))

/-- `fn improvement_choice_index_from_cursor_position` (src/main.rs:151-154). -/
def improvement_choice_index_from_cursor_position
    (cursor_position : Nat × Nat) : Nat :=
  cursor_position.2 - PLAYING_CURSOR_MAX_UP - 1

/-- The bound rectangle of a mode, as the spec states it: playing mode
spans `[0, 2*W-1] × [0, 2*H-1]`; choosing mode constrains only the
vertical axis to `[CHOOSING_IMPROVEMENT_CURSOR_MAX_UP,
CHOOSING_IMPROVEMENT_CURSOR_MAX_UP + n - 1]`. -/
def inBounds (W H : Nat) (gs : GameState) (p : Nat × Nat) : Prop :=
  match gs with
  | GameState.playing => p.1 ≤ 2 * W - 1 ∧ p.2 ≤ 2 * H - 1
  | GameState.choosingImprovement n =>
      CHOOSING_IMPROVEMENT_CURSOR_MAX_UP ≤ p.2 ∧
      p.2 ≤ CHOOSING_IMPROVEMENT_CURSOR_MAX_UP + n - 1

instance (W H : Nat) (gs : GameState) (p : Nat × Nat) :
    Decidable (inBounds W H gs p) := by
  unfold inBounds; cases gs <;> exact inferInstance

/-- A sequence of `move_cursor` steps, `none` as soon as one step hits
the `unreachable!` arm. -/
def moveMany (W H : Nat) (gs : GameState) :
    List CursorMove → Nat × Nat → Option (Nat × Nat)
  | [], p => some p
  | m :: ms, p =>
    match move_cursor W H p m gs with
    | some p' => moveMany W H gs ms p'
    | none => none

/-- The wrapped guard value of the choosing-mode `Down` arm, computed:
`2^16 - 1` when `n % 2^16 = 0`, else `n % 2^16 - 1`. -/
theorem wrap16_choosing_down_guard (n : Nat) :
    wrap16 ((CHOOSING_IMPROVEMENT_CURSOR_MAX_UP : Int)
        + (n % 65536 : Nat) - 1 - (CHOOSING_IMPROVEMENT_CURSOR_MOVE : Int))
    = if n % 65536 = 0 then 65535 else n % 65536 - 1 := by
  have hlt : n % 65536 < 65536 := Nat.mod_lt n (by norm_num)
  rcases Nat.eq_zero_or_pos (n % 65536) with hz | hpos
  · rw [hz]
    simp only [CHOOSING_IMPROVEMENT_CURSOR_MAX_UP,
      CHOOSING_IMPROVEMENT_CURSOR_MOVE, if_pos rfl]
    decide
  · rw [if_neg (by omega)]
    unfold wrap16
    have heq : (CHOOSING_IMPROVEMENT_CURSOR_MAX_UP : Int)
        + (n % 65536 : Nat) - 1 - (CHOOSING_IMPROVEMENT_CURSOR_MOVE : Int)
        = ((n % 65536 - 1 : Nat) : Int) := by
      simp only [CHOOSING_IMPROVEMENT_CURSOR_MAX_UP,
        CHOOSING_IMPROVEMENT_CURSOR_MOVE]
      push_cast; omega
    rw [heq, Int.emod_eq_of_lt (by positivity) (by omega)]
    simp

/-- One `move_cursor` step preserves the mode's bound rectangle and, in
choosing mode, the horizontal coordinate. -/
theorem move_cursor_preserves_inBounds (W H : Nat) (gs : GameState)
    (p q : Nat × Nat) (m : CursorMove) (hW : 2 ≤ W) (hH : 2 ≤ H)
    (hp : inBounds W H gs p) (hstep : move_cursor W H p m gs = some q) :
    inBounds W H gs q ∧ (gs ≠ GameState.playing → q.1 = p.1) := by
  cases gs with
  | playing =>
    obtain ⟨h1, h2⟩ := hp
    refine ⟨?_, fun hc => absurd rfl hc⟩
    cases m <;>
      (simp only [move_cursor, PLAYING_CURSOR_MAX_UP, PLAYING_CURSOR_MAX_LEFT,
        PLAYING_CURSOR_MAX_RIGHT, PLAYING_CURSOR_MAX_DOWN,
        PLAYING_CURSOR_MOVE] at hstep
       split at hstep <;>
        (simp only [Option.some.injEq] at hstep
         subst hstep
         refine ⟨?_, ?_⟩ <;> dsimp only <;> omega))
  | choosingImprovement n =>
    obtain ⟨h1, h2⟩ := hp
    simp only [CHOOSING_IMPROVEMENT_CURSOR_MAX_UP] at h1 h2
    have hn : 1 ≤ n := by omega
    have hmod : n % 65536 ≤ n := Nat.mod_le n 65536
    have h16 : n % 65536 = 0 → 65536 ≤ n := by
      intro hz
      rcases Nat.lt_or_ge n 65536 with hlt | hge
      · rw [Nat.mod_eq_of_lt hlt] at hz; omega
      · exact hge
    cases m with
    | up =>
      simp only [move_cursor, CHOOSING_IMPROVEMENT_CURSOR_MAX_UP,
        CHOOSING_IMPROVEMENT_CURSOR_MOVE] at hstep
      split at hstep <;>
        (simp only [Option.some.injEq] at hstep
         subst hstep
         refine ⟨⟨?_, ?_⟩, fun _ => rfl⟩ <;>
           simp only [CHOOSING_IMPROVEMENT_CURSOR_MAX_UP] <;> omega)
    | down =>
      simp only [move_cursor] at hstep
      rw [wrap16_choosing_down_guard] at hstep
      rcases Nat.eq_zero_or_pos (n % 65536) with hz | hpos
      · have h65 := h16 hz
        rw [show (if n % 65536 = 0 then 65535 else n % 65536 - 1)
            = 65535 from by simp [hz]] at hstep
        split at hstep <;>
          (simp only [Option.some.injEq] at hstep
           subst hstep
           refine ⟨⟨?_, ?_⟩, fun _ => rfl⟩ <;>
             simp only [CHOOSING_IMPROVEMENT_CURSOR_MAX_UP,
               CHOOSING_IMPROVEMENT_CURSOR_MOVE] <;> omega)
      · rw [show (if n % 65536 = 0 then 65535 else n % 65536 - 1)
            = n % 65536 - 1 from if_neg (by omega)] at hstep
        split at hstep <;>
          (simp only [Option.some.injEq] at hstep
           subst hstep
           refine ⟨⟨?_, ?_⟩, fun _ => rfl⟩ <;>
             simp only [CHOOSING_IMPROVEMENT_CURSOR_MAX_UP,
               CHOOSING_IMPROVEMENT_CURSOR_MOVE] <;> omega)
    | right =>
      simp only [move_cursor] at hstep
      exact Option.noConfusion hstep
    | left =>
      simp only [move_cursor] at hstep
      exact Option.noConfusion hstep

/-- A sequence of `move_cursor` steps preserves the mode's bound
rectangle and, outside playing mode, the horizontal coordinate. -/
theorem moveMany_preserves_inBounds (W H : Nat) (gs : GameState)
    (moves : List CursorMove) :
    ∀ pos q : Nat × Nat, 2 ≤ W → 2 ≤ H → inBounds W H gs pos →
      moveMany W H gs moves pos = some q →
      inBounds W H gs q ∧ (gs ≠ GameState.playing → q.1 = pos.1) := by
  induction moves with
  | nil =>
    intro pos q _ _ hp hmm
    simp only [moveMany, Option.some.injEq] at hmm
    subst hmm
    exact ⟨hp, fun _ => rfl⟩
  | cons m ms ih =>
    intro pos q hW hH hp hmm
    simp only [moveMany] at hmm
    rcases hstep : move_cursor W H pos m gs with _ | p'
    · rw [hstep] at hmm; exact Option.noConfusion hmm
    · rw [hstep] at hmm
      obtain ⟨hb', hx'⟩ :=
        move_cursor_preserves_inBounds W H gs pos p' m hW hH hp hstep
      obtain ⟨hbq, hxq⟩ := ih p' q hW hH hb' hmm
      exact ⟨hbq, fun hns => (hxq hns).trans (hx' hns)⟩

/-- C3: starting inside the active mode's bound rectangle, every
sequence of `move_cursor` steps keeps the cursor inside the rectangle
(playing mode: `[0, 2W-1] × [0, 2H-1]`, step 2; choosing mode:
`y ∈ [1, 1+n-1]`, step 1, `x` unchanged); a step that would leave the
bounds leaves the coordinate unchanged — in particular, with an 8-wide
board, moving `Right` from screen `(14, 0)` returns `(14, 0)`. -/
theorem claim_c3_cursor_stays_in_bounds :
    (∀ (W H : Nat) (gs : GameState) (pos q : Nat × Nat)
        (moves : List CursorMove), 2 ≤ W → 2 ≤ H → inBounds W H gs pos →
        moveMany W H gs moves pos = some q →
        inBounds W H gs q ∧
          (∀ n, gs = GameState.choosingImprovement n → q.1 = pos.1))
    ∧ move_cursor 8 6 (14, 0) CursorMove.right GameState.playing
        = some (14, 0) := by
  constructor
  · intro W H gs pos q moves hW hH hp hmm
    obtain ⟨hb, hx⟩ := moveMany_preserves_inBounds W H gs moves pos q hW hH hp hmm
    exact ⟨hb, fun n hgs => hx (by rw [hgs]; exact fun h => GameState.noConfusion h)⟩
  · decide

/-- Witness for C3 at board 8×6: one `Right` step from `(0, 0)` lands on
`(2, 0)`, inside the playing rectangle. -/
theorem claim_c3_witness :
    inBounds 8 6 GameState.playing (2, 0) ∧
      (∀ n, GameState.playing = GameState.choosingImprovement n →
        (2, 0).1 = ((0, 0) : Nat × Nat).1) :=
  claim_c3_cursor_stays_in_bounds.1 8 6 GameState.playing (0, 0) (2, 0)
    [CursorMove.right] (by norm_num) (by norm_num) (by decide) (by decide)

/-- One playing-mode `move_cursor` step preserves evenness of both
coordinates. -/
theorem move_cursor_playing_preserves_even (W H : Nat) (p q : Nat × Nat)
    (m : CursorMove) (hx : 2 ∣ p.1) (hy : 2 ∣ p.2)
    (hstep : move_cursor W H p m GameState.playing = some q) :
    2 ∣ q.1 ∧ 2 ∣ q.2 := by
  cases m <;>
    (simp only [move_cursor, PLAYING_CURSOR_MAX_UP, PLAYING_CURSOR_MAX_LEFT,
      PLAYING_CURSOR_MAX_RIGHT, PLAYING_CURSOR_MAX_DOWN,
      PLAYING_CURSOR_MOVE] at hstep
     split at hstep <;>
      (simp only [Option.some.injEq] at hstep
       subst hstep
       refine ⟨?_, ?_⟩ <;> (try dsimp only) <;> omega))

/-- C4: in playing mode, starting from the initial cursor position
`(0, 0)`, both cursor coordinates stay even after every sequence of
moves, so the integer divisions by 2 in
`tile_position_from_cursor_position` are exact. -/
theorem claim_c4_cursor_even (W H : Nat) (moves : List CursorMove)
    (q : Nat × Nat)
    (hmm : moveMany W H GameState.playing moves (0, 0) = some q) :
    2 ∣ q.1 ∧ 2 ∣ q.2 ∧ 2 * (q.1 / 2) = q.1 ∧ 2 * (q.2 / 2) = q.2 := by
  suffices h : ∀ (ms : List CursorMove) (p r : Nat × Nat), 2 ∣ p.1 → 2 ∣ p.2 →
      moveMany W H GameState.playing ms p = some r → 2 ∣ r.1 ∧ 2 ∣ r.2 by
    obtain ⟨h1, h2⟩ := h moves (0, 0) q (by omega) (by omega) hmm
    exact ⟨h1, h2, by omega, by omega⟩
  intro ms
  induction ms with
  | nil =>
    intro p r hx hy hmm'
    simp only [moveMany, Option.some.injEq] at hmm'
    subst hmm'
    exact ⟨hx, hy⟩
  | cons m ms' ih =>
    intro p r hx hy hmm'
    simp only [moveMany] at hmm'
    rcases hstep : move_cursor W H p m GameState.playing with _ | p'
    · rw [hstep] at hmm'; exact Option.noConfusion hmm'
    · rw [hstep] at hmm'
      obtain ⟨hx', hy'⟩ :=
        move_cursor_playing_preserves_even W H p p' m hx hy hstep
      exact ih p' r hx' hy' hmm'

/-- Witness for C4: the sequence `[Down, Right]` from `(0, 0)` on the
8×6 board reaches `(2, 2)`, whose coordinates are even. -/
theorem claim_c4_witness :
    2 ∣ ((2, 2) : Nat × Nat).1 ∧ 2 ∣ ((2, 2) : Nat × Nat).2 ∧
      2 * (((2, 2) : Nat × Nat).1 / 2) = ((2, 2) : Nat × Nat).1 ∧
      2 * (((2, 2) : Nat × Nat).2 / 2) = ((2, 2) : Nat × Nat).2 :=
  claim_c4_cursor_even 8 6 [CursorMove.down, CursorMove.right] (2, 2)
    (by decide)

/-- C5: for every playing-mode cursor coordinate inside the playing
bound rectangle, `tile_position_from_cursor_position` returns
`row = (y - originY) / 2`, `col = (x - originX) / 2` (origins both 0),
a valid tile position (`0 ≤ row < H`, `0 ≤ col < W`); in particular the
cursor at glyph cell `(4, 6)` yields row 3, col 2. -/
theorem claim_c5_tile_from_cursor :
    (∀ (W H x y : Nat), 1 ≤ W → 1 ≤ H → x ≤ 2 * W - 1 → y ≤ 2 * H - 1 →
      tile_position_from_cursor_position (x, y)
          = ((((y - PLAYING_CURSOR_MAX_UP) / 2 : Nat) : Int),
             (((x - PLAYING_CURSOR_MAX_LEFT) / 2 : Nat) : Int)) ∧
        0 ≤ (tile_position_from_cursor_position (x, y)).1 ∧
        (tile_position_from_cursor_position (x, y)).1 < (H : Int) ∧
        0 ≤ (tile_position_from_cursor_position (x, y)).2 ∧
        (tile_position_from_cursor_position (x, y)).2 < (W : Int))
    ∧ tile_position_from_cursor_position (4, 6) = (3, 2) := by
  constructor
  · intro W H x y hW hH hx hy
    refine ⟨rfl, ?_, ?_, ?_, ?_⟩ <;>
      simp only [tile_position_from_cursor_position, PLAYING_CURSOR_MAX_UP,
        PLAYING_CURSOR_MAX_LEFT] <;> omega
  · decide

/-- Witness for C5 at board 8×6 and cursor `(4, 6)`. -/
theorem claim_c5_witness :
    tile_position_from_cursor_position (4, 6)
        = ((((6 - PLAYING_CURSOR_MAX_UP) / 2 : Nat) : Int),
           (((4 - PLAYING_CURSOR_MAX_LEFT) / 2 : Nat) : Int)) ∧
      0 ≤ (tile_position_from_cursor_position (4, 6)).1 ∧
      (tile_position_from_cursor_position (4, 6)).1 < (6 : Int) ∧
      0 ≤ (tile_position_from_cursor_position (4, 6)).2 ∧
      (tile_position_from_cursor_position (4, 6)).2 < (8 : Int) :=
  claim_c5_tile_from_cursor.1 8 6 4 6 (by norm_num) (by norm_num)
    (by norm_num) (by norm_num)

/-- C6: round trip — every valid tile position `(row, col)` is recovered
by `tile_position_from_cursor_position` from its glyph-cell screen
coordinate `(2*col, 2*row)`. -/
theorem claim_c6_round_trip (W H row col : Nat) (_hrow : row < H)
    (_hcol : col < W) :
    tile_position_from_cursor_position (2 * col, 2 * row)
      = ((row : Int), (col : Int)) := by
  simp only [tile_position_from_cursor_position, PLAYING_CURSOR_MAX_UP,
    PLAYING_CURSOR_MAX_LEFT, Nat.sub_zero, Prod.mk.injEq]
  constructor <;> (congr 1; omega)

/-- Witness for C6 at board 8×6 and tile `(3, 2)`. -/
theorem claim_c6_witness :
    tile_position_from_cursor_position (2 * 2, 2 * 3)
      = ((3 : Int), (2 : Int)) :=
  claim_c6_round_trip 8 6 3 2 (by norm_num) (by norm_num)

/-!
## Chain-path renderer (`GameWidget::render`, src/main.rs:335-399)

The board-drawing double loop of `GameWidget::render`.  The screen buffer
is modelled as its character plane, a total function `Int → Int → Char`
(styles — colors and modifiers — carry no information the claims are
about and are not modelled).  The status/ability text panel written
before the board (src/main.rs:192-334) only touches rows
`PLAYING_CURSOR_MAX_DOWN + 1 = 2*H` and below, outside every cell the
board loop writes, so the theorems quantify over an arbitrary initial
buffer instead.  Cell coordinates are modelled as `Int`: the source's
`u16` arithmetic on `arrow_blot_x/y` cannot underflow for a well-formed
board, whose chain successors stay on the board.
-/

/-- The tile kinds matched by the front end (`TileType` of the external
crate): the six named variants plus a catch-all for the crate's
remaining variants (the `_` arms of src/main.rs:156-166). -/
inductive TileType
  | potion
  | shield
  | coin
  | sword
  | enemy
  | special
  | other
deriving DecidableEq

/-- `Wind8` of the external crate: the 8 compass directions plus
`None`. -/
inductive Wind8
  | up
  | upRight
  | right
  | downRight
  | down
  | downLeft
  | left
  | upLeft
  | none
deriving DecidableEq

/-- Modelled from the spec: `TilePosition::try_from(Wind8)` of the
external `dungeon_raid_core` crate (not under `src/`), which "must always
succeed and yield one of the 8 unit vectors" for a non-`None` direction;
the result is the `(y, x)` offset of the successor tile.  `Wind8::None`
is the `Wind8::None => continue` arm of src/main.rs:360. -/
def tilePositionFromWind8 : Wind8 → Option (Int × Int)
  | Wind8.up => some (-1, 0)
  | Wind8.upRight => some (-1, 1)
  | Wind8.right => some (0, 1)
  | Wind8.downRight => some (1, 1)
  | Wind8.down => some (1, 0)
  | Wind8.downLeft => some (1, -1)
  | Wind8.left => some (0, -1)
  | Wind8.upLeft => some (-1, -1)
  | Wind8.none => Option.none

/-- `fn blot_char_from_tile_type` (src/main.rs:156-166). -/
def blot_char_from_tile_type : TileType → Char
  | TileType.potion => 'p'
  | TileType.shield => 's'
  | TileType.coin => 'c'
  | TileType.sword => 'S'
  | TileType.enemy => 'E'
  | TileType.special => 'B'
  | TileType.other => '!'

/-- The slice of `Tile` (external crate) the renderer reads: its type
and its chain-successor direction. -/
structure Tile where
  tile_type : TileType
  next_selection : Wind8
deriving DecidableEq

/-- The board, as the total query `Game::get_tile(TilePosition::new(y, x))`
(row first, matching `TilePosition`). -/
def Board : Type := Int → Int → Tile

/-- The character plane of the `ratatui` buffer. -/
def ScreenBuffer : Type := Int → Int → Char

/-- `buf.get_mut(x, y).set_char(c)`, restricted to the character plane. -/
def setChar (b : ScreenBuffer) (x y : Int) (c : Char) : ScreenBuffer :=
  fun x' y' => if x' = x ∧ y' = y then c else b x' y'

/-- The connector glyph computed from the successor offset `(ty, tx)`
(the nested matches of src/main.rs:363-385); `Option.none` models the
`unreachable!` arms, never taken for a unit-vector offset. -/
def arrow_blot_char (ty tx : Int) : Option Char :=
  if ty = -1 then
    if tx = -1 then some '\\'
    else if tx = 0 then some '|'
    else if tx = 1 then some '/'
    else Option.none
  else if ty = 0 then
    if tx = -1 ∨ tx = 1 then some '-'
    else Option.none
  else if ty = 1 then
    if tx = -1 then some '/'
    else if tx = 0 then some '|'
    else if tx = 1 then some '\\'
    else Option.none
  else Option.none

/-- The body of the board double loop for one tile at column `x`, row
`y` (src/main.rs:336-397): write the tile glyph at `(2x, 2y)`, then, if
the tile has a successor, write the connector glyph one screen unit
toward it — replaced by `X` when the target cell already holds a
diagonal connector `/` or `\` (src/main.rs:393-396). -/
def renderTileStep (board : Board) (p : Nat × Nat) (buf : ScreenBuffer) :
    ScreenBuffer :=
  let blot_x : Int := (p.1 : Int) * 2
  let blot_y : Int := (p.2 : Int) * 2
  let t : Tile := board (p.2 : Int) (p.1 : Int)
  let blot : Char := blot_char_from_tile_type t.tile_type
  let buf1 : ScreenBuffer := setChar buf blot_x blot_y blot
  match tilePositionFromWind8 t.next_selection with
  | Option.none => buf1
  | Option.some tp =>
    match arrow_blot_char tp.1 tp.2 with
    | Option.none => buf1
    | Option.some g =>
      let arrow_blot_x : Int := blot_x + tp.2
      let arrow_blot_y : Int := blot_y + tp.1
      let g2 : Char :=
        if buf1 arrow_blot_x arrow_blot_y = '/'
            ∨ buf1 arrow_blot_x arrow_blot_y = '\\' then 'X' else g
      setChar buf1 arrow_blot_x arrow_blot_y g2

/-- The screen cell the connector write of the tile at `p` targets, if
any. -/
def connTarget (board : Board) (p : Nat × Nat) : Option (Int × Int) :=
  match tilePositionFromWind8 (board (p.2 : Int) (p.1 : Int)).next_selection with
  | Option.none => Option.none
  | Option.some tp =>
    match arrow_blot_char tp.1 tp.2 with
    | Option.none => Option.none
    | Option.some _ => some ((p.1 : Int) * 2 + tp.2, (p.2 : Int) * 2 + tp.1)

/-- The tile at `p` has a diagonal connector (both offset components
nonzero). -/
def diagonalConn (board : Board) (p : Nat × Nat) : Prop :=
  ∃ ty tx, tilePositionFromWind8
      (board (p.2 : Int) (p.1 : Int)).next_selection = some (ty, tx) ∧
    ty ≠ 0 ∧ tx ≠ 0

/-- The scan order of the board double loop: `x` outer over columns,
`y` inner over rows (src/main.rs:335-337). -/
def scanPositions (W H : Nat) : List (Nat × Nat) :=
  (List.range W).flatMap fun x => (List.range H).map fun y => (x, y)

/-- The board-drawing part of `GameWidget::render` (the `None` branch of
src/main.rs:296-399): the double loop folded over the scan order. -/
def renderBoard (W H : Nat) (board : Board) (buf : ScreenBuffer) :
    ScreenBuffer :=
  (scanPositions W H).foldl (fun b p => renderTileStep board p b) buf

theorem setChar_same (b : ScreenBuffer) (x y : Int) (c : Char) :
    setChar b x y c x y = c := by
  simp [setChar]

theorem setChar_other (b : ScreenBuffer) (x y : Int) (c : Char)
    (x' y' : Int) (h : ¬(x' = x ∧ y' = y)) :
    setChar b x y c x' y' = b x' y' := by
  simp only [setChar, if_neg h]

/-- Offsets accepted by the connector glyph table are unit vectors: each
component in `[-1, 1]`, not both zero. -/
theorem arrow_blot_char_range (ty tx : Int) (g : Char)
    (h : arrow_blot_char ty tx = some g) :
    (-1 ≤ ty ∧ ty ≤ 1) ∧ (-1 ≤ tx ∧ tx ≤ 1) ∧ ¬(ty = 0 ∧ tx = 0) := by
  unfold arrow_blot_char at h
  split_ifs at h <;>
    first
      | exact Option.noConfusion h
      | (refine ⟨by omega, ?_, by omega⟩
         rename_i hor _
         rcases hor with h' | h' <;> omega)
      | exact ⟨by omega, by omega, by omega⟩

/-- A diagonal offset always selects `/` or `\`. -/
theorem arrow_blot_char_diag (ty tx : Int) (g : Char)
    (h : arrow_blot_char ty tx = some g) (hty : ty ≠ 0) (htx : tx ≠ 0) :
    g = '/' ∨ g = '\\' := by
  unfold arrow_blot_char at h
  split_ifs at h <;>
    first
      | exact Option.noConfusion h
      | (simp only [Option.some.injEq] at h; subst h; simp)

/-- Inversion of `connTarget`. -/
theorem connTarget_inv (board : Board) (p : Nat × Nat) (c : Int × Int)
    (h : connTarget board p = some c) :
    ∃ ty tx g,
      tilePositionFromWind8
          (board (p.2 : Int) (p.1 : Int)).next_selection = some (ty, tx) ∧
      arrow_blot_char ty tx = some g ∧
      c = ((p.1 : Int) * 2 + tx, (p.2 : Int) * 2 + ty) := by
  rcases hw : tilePositionFromWind8
      (board (p.2 : Int) (p.1 : Int)).next_selection with _ | tp
  · simp only [connTarget, hw] at h
    exact Option.noConfusion h
  · rcases ha : arrow_blot_char tp.1 tp.2 with _ | g
    · simp only [connTarget, hw, ha] at h
      exact Option.noConfusion h
    · simp only [connTarget, hw, ha, Option.some.injEq] at h
      exact ⟨tp.1, tp.2, g, by simp [hw], ha, h.symm⟩

/-- A cell targeted by some connector has at least one odd coordinate
(the tile glyph cells are even-even). -/
theorem connTarget_odd (board : Board) (p : Nat × Nat) (c : Int × Int)
    (h : connTarget board p = some c) : Odd c.1 ∨ Odd c.2 := by
  obtain ⟨ty, tx, g, _, ha, rfl⟩ := connTarget_inv board p c h
  obtain ⟨hty, htx, hnz⟩ := arrow_blot_char_range ty tx g ha
  simp only [Int.odd_iff]
  omega

/-- A step neither of whose writes lands on the cell `c` leaves `c`
unchanged. -/
theorem renderTileStep_preserve_cell (board : Board) (p : Nat × Nat)
    (b : ScreenBuffer) (c : Int × Int)
    (hglyph : ¬(c.1 = (p.1 : Int) * 2 ∧ c.2 = (p.2 : Int) * 2))
    (hc : connTarget board p ≠ some c) :
    renderTileStep board p b c.1 c.2 = b c.1 c.2 := by
  rcases hw : tilePositionFromWind8
      (board (p.2 : Int) (p.1 : Int)).next_selection with _ | tp
  · simp only [renderTileStep, hw]
    exact setChar_other _ _ _ _ _ _ hglyph
  · rcases ha : arrow_blot_char tp.1 tp.2 with _ | g
    · simp only [renderTileStep, hw, ha]
      exact setChar_other _ _ _ _ _ _ hglyph
    · have htarget : ¬(c.1 = (p.1 : Int) * 2 + tp.2 ∧
          c.2 = (p.2 : Int) * 2 + tp.1) := by
        rintro ⟨h1, h2⟩
        exact hc (by simp only [connTarget, hw, ha]; rw [← h1, ← h2])
      simp only [renderTileStep, hw, ha]
      rw [setChar_other _ _ _ _ _ _ htarget,
        setChar_other _ _ _ _ _ _ hglyph]

/-- A step whose connector does not target the odd cell `c` leaves `c`
unchanged (its glyph write lands on an even-even cell). -/
theorem renderTileStep_preserve (board : Board) (p : Nat × Nat)
    (b : ScreenBuffer) (c : Int × Int) (hodd : Odd c.1 ∨ Odd c.2)
    (hc : connTarget board p ≠ some c) :
    renderTileStep board p b c.1 c.2 = b c.1 c.2 := by
  refine renderTileStep_preserve_cell board p b c ?_ hc
  rintro ⟨h1, h2⟩
  rcases hodd with h | h <;> rw [Int.odd_iff] at h <;> omega

/-- Folding steps none of which targets the odd cell `c` leaves `c`
unchanged. -/
theorem foldSteps_preserve (board : Board) (c : Int × Int)
    (hodd : Odd c.1 ∨ Odd c.2) :
    ∀ (L : List (Nat × Nat)) (b : ScreenBuffer),
      (∀ p ∈ L, connTarget board p ≠ some c) →
      L.foldl (fun b' p => renderTileStep board p b') b c.1 c.2
        = b c.1 c.2 := by
  intro L
  induction L with
  | nil => intro b _; rfl
  | cons p ps ih =>
    intro b hL
    simp only [List.foldl_cons]
    rw [ih _ (fun q hq => hL q (List.mem_cons_of_mem p hq)),
      renderTileStep_preserve board p b c hodd (hL p (List.mem_cons_self p ps))]

/-- The value a step's connector write leaves at its target cell:
`X` if the target already holds a diagonal connector, else the computed
glyph. -/
theorem renderTileStep_conn_write (board : Board) (p : Nat × Nat)
    (b : ScreenBuffer) (ty tx : Int) (g : Char)
    (hw : tilePositionFromWind8
        (board (p.2 : Int) (p.1 : Int)).next_selection = some (ty, tx))
    (ha : arrow_blot_char ty tx = some g) :
    renderTileStep board p b ((p.1 : Int) * 2 + tx) ((p.2 : Int) * 2 + ty)
      = if b ((p.1 : Int) * 2 + tx) ((p.2 : Int) * 2 + ty) = '/'
            ∨ b ((p.1 : Int) * 2 + tx) ((p.2 : Int) * 2 + ty) = '\\'
        then 'X' else g := by
  obtain ⟨hty, htx, hnz⟩ := arrow_blot_char_range ty tx g ha
  have htarget : ¬((p.1 : Int) * 2 + tx = (p.1 : Int) * 2 ∧
      (p.2 : Int) * 2 + ty = (p.2 : Int) * 2) := by
    rintro ⟨h1, h2⟩
    exact hnz ⟨by omega, by omega⟩
  simp only [renderTileStep, hw, ha]
  rw [setChar_same,
    setChar_other _ _ _ _ _ _ htarget]

/-- Membership in the scan order is exactly being an on-board column/row
pair. -/
theorem mem_scanPositions (W H : Nat) (p : Nat × Nat) :
    p ∈ scanPositions W H ↔ p.1 < W ∧ p.2 < H := by
  unfold scanPositions
  simp only [List.mem_flatMap, List.mem_map, List.mem_range]
  constructor
  · rintro ⟨x, hx, y, hy, rfl⟩
    exact ⟨hx, hy⟩
  · rintro ⟨h1, h2⟩
    exact ⟨p.1, h1, p.2, h2, rfl⟩

/-- The scan order visits each board position exactly once. -/
theorem scanPositions_nodup (W H : Nat) : (scanPositions W H).Nodup := by
  unfold scanPositions
  refine List.nodup_flatMap.2 ⟨?_, ?_⟩
  · intro x _
    refine List.Nodup.map ?_ (List.nodup_range H)
    intro a b h
    simpa using congrArg Prod.snd h
  · refine List.Pairwise.imp ?_ (List.pairwise_lt_range W)
    intro a b hab
    intro q hqa hqb
    simp only [List.mem_map, List.mem_range] at hqa hqb
    obtain ⟨y, _, rfl⟩ := hqa
    obtain ⟨y', _, h⟩ := hqb
    have := congrArg Prod.fst h
    simp at this
    omega

/-- Two distinct members of a list split it into five parts, in one of
the two relative orders. -/
theorem mem_split_pair {α : Type} (L : List α) (a b : α)
    (ha : a ∈ L) (hb : b ∈ L) (hne : a ≠ b) :
    ∃ (L1 : List α) (x : α) (L2 : List α) (y : α) (L3 : List α),
      L = L1 ++ x :: L2 ++ y :: L3 ∧
        ((x = a ∧ y = b) ∨ (x = b ∧ y = a)) := by
  obtain ⟨s, t, rfl⟩ := List.append_of_mem ha
  rcases List.mem_append.1 hb with hbs | hbt
  · obtain ⟨u, v, rfl⟩ := List.append_of_mem hbs
    exact ⟨u, b, v, a, t, by simp, Or.inr ⟨rfl, rfl⟩⟩
  · rcases List.mem_cons.1 hbt with hba | hbt'
    · exact absurd hba.symm hne
    · obtain ⟨u, v, rfl⟩ := List.append_of_mem hbt'
      exact ⟨s, a, u, b, v, by simp, Or.inl ⟨rfl, rfl⟩⟩

/-- In a duplicate-free five-part split, the two distinguished elements
occur nowhere else. -/
theorem nodup_split_facts {α : Type} (L1 L2 L3 : List α) (x y : α)
    (hnd : (L1 ++ x :: L2 ++ y :: L3).Nodup) :
    (x ∉ L1 ∧ x ∉ L2 ∧ x ∉ L3) ∧ (y ∉ L1 ∧ y ∉ L2 ∧ y ∉ L3) ∧ x ≠ y := by
  obtain ⟨h1, hndB, hd⟩ := List.nodup_append.1 hnd
  obtain ⟨hndL1, hndA, hd2⟩ := List.nodup_append.1 h1
  obtain ⟨hxL2, hndL2⟩ := List.nodup_cons.1 hndA
  obtain ⟨hyL3, hndL3⟩ := List.nodup_cons.1 hndB
  refine ⟨⟨?_, hxL2, ?_⟩, ⟨?_, ?_, hyL3⟩, ?_⟩
  · exact fun hc => hd2 hc (List.mem_cons_self x L2)
  · exact fun hc =>
      hd (List.mem_append.2 (Or.inr (List.mem_cons_self x L2)))
        (List.mem_cons_of_mem y hc)
  · exact fun hc =>
      hd (List.mem_append.2 (Or.inl hc)) (List.mem_cons_self y L3)
  · exact fun hc =>
      hd (List.mem_append.2 (Or.inr (List.mem_cons_of_mem x hc)))
        (List.mem_cons_self y L3)
  · exact fun hc =>
      hd (List.mem_append.2 (Or.inr (List.mem_cons_self x L2)))
        (by rw [hc]; exact List.mem_cons_self y L3)

/-- A cell targeted by a diagonal connector has both coordinates odd. -/
theorem connTarget_diag_odd (board : Board) (p : Nat × Nat) (c : Int × Int)
    (ht : connTarget board p = some c) (hd : diagonalConn board p) :
    Odd c.1 ∧ Odd c.2 := by
  obtain ⟨ty, tx, g, hw, ha, hceq⟩ := connTarget_inv board p c ht
  obtain ⟨ty', tx', hw', hty', htx'⟩ := hd
  rw [hw] at hw'
  simp only [Option.some.injEq, Prod.mk.injEq] at hw'
  obtain ⟨h1, h2⟩ := hw'
  subst h1
  subst h2
  obtain ⟨hr1, hr2, _⟩ := arrow_blot_char_range ty tx g ha
  have hc1 : c.1 = (p.1 : Int) * 2 + tx := by rw [hceq]
  have hc2 : c.2 = (p.2 : Int) * 2 + ty := by rw [hceq]
  constructor <;> rw [Int.odd_iff] <;> omega

/-- Scanning a segment, then the first of two connectors aimed at the
odd-odd cell `c` (necessarily diagonal), then a clean segment, then the
second connector, then a trailing clean segment, ends with `X` at `c`. -/
theorem crossing_fold (board : Board) (c : Int × Int)
    (L1 L2 L3 : List (Nat × Nat)) (qa qb : Nat × Nat) (b : ScreenBuffer)
    (hodd : Odd c.1 ∧ Odd c.2)
    (hta : connTarget board qa = some c)
    (htb : connTarget board qb = some c)
    (hL1 : ∀ p ∈ L1, connTarget board p ≠ some c)
    (hL2 : ∀ p ∈ L2, connTarget board p ≠ some c)
    (hL3 : ∀ p ∈ L3, connTarget board p ≠ some c)
    (hb1 : b c.1 c.2 ≠ '/') (hb2 : b c.1 c.2 ≠ '\\') :
    (L1 ++ qa :: L2 ++ qb :: L3).foldl
      (fun b' p => renderTileStep board p b') b c.1 c.2 = 'X' := by
  obtain ⟨tya, txa, ga, hwa, haa, hca⟩ := connTarget_inv board qa c hta
  obtain ⟨tyb, txb, gb, hwb, hab, hcb⟩ := connTarget_inv board qb c htb
  have hc1a : c.1 = (qa.1 : Int) * 2 + txa := by rw [hca]
  have hc2a : c.2 = (qa.2 : Int) * 2 + tya := by rw [hca]
  have hc1b : c.1 = (qb.1 : Int) * 2 + txb := by rw [hcb]
  have hc2b : c.2 = (qb.2 : Int) * 2 + tyb := by rw [hcb]
  obtain ⟨hodd1, hodd2⟩ := hodd
  rw [Int.odd_iff] at hodd1 hodd2
  have hdiaga : ga = '/' ∨ ga = '\\' := by
    obtain ⟨hra, hrb, _⟩ := arrow_blot_char_range tya txa ga haa
    exact arrow_blot_char_diag tya txa ga haa (by omega) (by omega)
  have hoddor : Odd c.1 ∨ Odd c.2 := Or.inl (Int.odd_iff.2 hodd1)
  have e1 : (L1.foldl (fun b' p => renderTileStep board p b') b) c.1 c.2
      = b c.1 c.2 :=
    foldSteps_preserve board c hoddor L1 b hL1
  have e2 : renderTileStep board qa
      (L1.foldl (fun b' p => renderTileStep board p b') b) c.1 c.2 = ga := by
    rw [hc1a, hc2a,
      renderTileStep_conn_write board qa _ tya txa ga hwa haa,
      ← hc1a, ← hc2a, e1]
    have hcond : ¬(b c.1 c.2 = '/' ∨ b c.1 c.2 = '\\') := by
      rintro (h | h)
      · exact hb1 h
      · exact hb2 h
    rw [if_neg hcond]
  have e3 : (L2.foldl (fun b' p => renderTileStep board p b')
      (renderTileStep board qa
        (L1.foldl (fun b' p => renderTileStep board p b') b))) c.1 c.2
      = ga := by
    rw [foldSteps_preserve board c hoddor L2 _ hL2, e2]
  have e4 : renderTileStep board qb
      (L2.foldl (fun b' p => renderTileStep board p b')
        (renderTileStep board qa
          (L1.foldl (fun b' p => renderTileStep board p b') b))) c.1 c.2
      = 'X' := by
    rw [hc1b, hc2b,
      renderTileStep_conn_write board qb _ tyb txb gb hwb hab,
      ← hc1b, ← hc2b, e3]
    rcases hdiaga with h | h <;> rw [h] <;> simp
  simp only [List.foldl_append, List.foldl_cons]
  exact (foldSteps_preserve board c hoddor L3 _ hL3).trans e4

/-- C1: if exactly two distinct tiles' connectors target the same screen
cell and at least one of the two connectors is diagonal, then after the
board pass of `GameWidget::render` that cell holds `X`, whichever of the
two is drawn first (the initial buffer holds no diagonal glyph at that
cell: the text panel never writes inside the board region). -/
theorem claim_c1_cross_marker (W H : Nat) (board : Board)
    (buf : ScreenBuffer) (p1 p2 : Nat × Nat) (c : Int × Int)
    (hp1 : p1.1 < W ∧ p1.2 < H) (hp2 : p2.1 < W ∧ p2.2 < H)
    (hne : p1 ≠ p2)
    (ht1 : connTarget board p1 = some c)
    (ht2 : connTarget board p2 = some c)
    (hdiag : diagonalConn board p1 ∨ diagonalConn board p2)
    (honly : ∀ q : Nat × Nat, q.1 < W → q.2 < H →
      connTarget board q = some c → q = p1 ∨ q = p2)
    (hbuf1 : buf c.1 c.2 ≠ '/') (hbuf2 : buf c.1 c.2 ≠ '\\') :
    renderBoard W H board buf c.1 c.2 = 'X' := by
  have hodd : Odd c.1 ∧ Odd c.2 := by
    rcases hdiag with h | h
    · exact connTarget_diag_odd board p1 c ht1 h
    · exact connTarget_diag_odd board p2 c ht2 h
  have hm1 : p1 ∈ scanPositions W H := (mem_scanPositions W H p1).2 hp1
  have hm2 : p2 ∈ scanPositions W H := (mem_scanPositions W H p2).2 hp2
  obtain ⟨L1, a, L2, d, L3, hdec, hab⟩ :=
    mem_split_pair (scanPositions W H) p1 p2 hm1 hm2 hne
  have hnd : (L1 ++ a :: L2 ++ d :: L3).Nodup :=
    hdec ▸ scanPositions_nodup W H
  obtain ⟨⟨ha1, ha2, ha3⟩, ⟨hd1, hd2, hd3⟩, _⟩ :=
    nodup_split_facts L1 L2 L3 a d hnd
  have hsub : ∀ M : List (Nat × Nat),
      (∀ r ∈ M, r ∈ scanPositions W H) → a ∉ M → d ∉ M →
      ∀ r ∈ M, connTarget board r ≠ some c := by
    intro M hMmem haM hdM r hr hcr
    have hrng := (mem_scanPositions W H r).1 (hMmem r hr)
    rcases honly r hrng.1 hrng.2 hcr with rfl | rfl
    · rcases hab with ⟨rfl, _⟩ | ⟨_, rfl⟩
      · exact haM hr
      · exact hdM hr
    · rcases hab with ⟨_, rfl⟩ | ⟨rfl, _⟩
      · exact hdM hr
      · exact haM hr
  have hL1 := hsub L1
    (by intro r hr; rw [hdec]; simp [hr]) ha1 hd1
  have hL2 := hsub L2
    (by intro r hr; rw [hdec]; simp [hr]) ha2 hd2
  have hL3 := hsub L3
    (by intro r hr; rw [hdec]; simp [hr]) ha3 hd3
  unfold renderBoard
  rw [hdec]
  rcases hab with ⟨hA, hD⟩ | ⟨hA, hD⟩
  · rw [hA, hD]
    exact crossing_fold board c L1 L2 L3 p1 p2 buf hodd ht1 ht2
      hL1 hL2 hL3 hbuf1 hbuf2
  · rw [hA, hD]
    exact crossing_fold board c L1 L2 L3 p2 p1 buf hodd ht2 ht1
      hL1 hL2 hL3 hbuf1 hbuf2

/-- A 2×2 board whose corner tiles' chains cross at screen cell
`(1, 1)`: tile `(0, 0)` points down-right, tile `(1, 1)` points
up-left. -/
def crossBoard : Board := fun y x =>
  if y = 0 ∧ x = 0 then ⟨TileType.potion, Wind8.downRight⟩
  else if y = 1 ∧ x = 1 then ⟨TileType.coin, Wind8.upLeft⟩
  else ⟨TileType.shield, Wind8.none⟩

/-- A blank screen buffer. -/
def blankBuf : ScreenBuffer := fun _ _ => ' '

/-- Witness for C1: on `crossBoard` the two crossing diagonal
connectors leave `X` at cell `(1, 1)`. -/
theorem claim_c1_witness : renderBoard 2 2 crossBoard blankBuf 1 1 = 'X' :=
  claim_c1_cross_marker 2 2 crossBoard blankBuf (0, 0) (1, 1) (1, 1)
    (by decide) (by decide) (by decide) (by decide) (by decide)
    (Or.inl ⟨1, 1, by decide, by decide, by decide⟩)
    (by
      rintro ⟨qx, qy⟩ h1 h2 hcr
      interval_cases qx <;> interval_cases qy <;>
        first
          | exact Or.inl rfl
          | exact Or.inr rfl
          | exact absurd hcr (by decide))
    (by decide) (by decide)

/-- The successor offset of a non-`None` direction is a unit vector. -/
theorem tilePositionFromWind8_range (w : Wind8) (ty tx : Int)
    (h : tilePositionFromWind8 w = some (ty, tx)) :
    (-1 ≤ ty ∧ ty ≤ 1) ∧ (-1 ≤ tx ∧ tx ≤ 1) ∧ ¬(ty = 0 ∧ tx = 0) := by
  cases w <;> simp only [tilePositionFromWind8, Option.some.injEq,
    Prod.mk.injEq] at h <;>
    [skip; skip; skip; skip; skip; skip; skip; skip; exact Option.noConfusion h] <;>
    obtain ⟨h1, h2⟩ := h <;> subst h1 <;> subst h2 <;>
    refine ⟨by omega, by omega, by omega⟩

/-- The connector glyph table, in the claim's terms: `|` for a vertical
offset, `-` for a horizontal one, `\` when `dx = dy`, `/` when
`dx = -dy`. -/
theorem arrow_blot_char_table (ty tx : Int)
    (hty : -1 ≤ ty ∧ ty ≤ 1) (htx : -1 ≤ tx ∧ tx ≤ 1)
    (hnz : ¬(ty = 0 ∧ tx = 0)) :
    arrow_blot_char ty tx
      = some (if tx = 0 then '|' else if ty = 0 then '-'
          else if tx = ty then '\\' else '/') := by
  obtain ⟨h1, h2⟩ := hty
  obtain ⟨h3, h4⟩ := htx
  interval_cases ty <;> interval_cases tx <;>
    first
      | decide
      | exact absurd ⟨rfl, rfl⟩ hnz

/-- C2: a tile with no successor direction writes nothing but its own
glyph; a tile with successor offset `(dy, dx)` computes the connector
glyph `|` when `dx = 0`, `-` when `dy = 0`, `\` when `dx = dy`, `/` when
`dx = -dy`, and writes it at cell `(2*col + dx, 2*row + dy)` (when that
cell holds no prior diagonal — otherwise the collision rule of C1
substitutes `X`). -/
theorem claim_c2_connector_glyph (board : Board) (p : Nat × Nat)
    (buf : ScreenBuffer) :
    ((board (p.2 : Int) (p.1 : Int)).next_selection = Wind8.none →
      ∀ cx cy : Int, ¬(cx = (p.1 : Int) * 2 ∧ cy = (p.2 : Int) * 2) →
        renderTileStep board p buf cx cy = buf cx cy)
    ∧ (∀ ty tx : Int,
        tilePositionFromWind8 (board (p.2 : Int) (p.1 : Int)).next_selection
            = some (ty, tx) →
        arrow_blot_char ty tx
            = some (if tx = 0 then '|' else if ty = 0 then '-'
                else if tx = ty then '\\' else '/')
        ∧ (¬(buf ((p.1 : Int) * 2 + tx) ((p.2 : Int) * 2 + ty) = '/'
              ∨ buf ((p.1 : Int) * 2 + tx) ((p.2 : Int) * 2 + ty) = '\\') →
            renderTileStep board p buf ((p.1 : Int) * 2 + tx)
                ((p.2 : Int) * 2 + ty)
              = if tx = 0 then '|' else if ty = 0 then '-'
                else if tx = ty then '\\' else '/')) := by
  constructor
  · intro hnone cx cy hne
    simp only [renderTileStep, hnone, tilePositionFromWind8]
    exact setChar_other _ _ _ _ _ _ hne
  · intro ty tx hw
    have hr := tilePositionFromWind8_range _ ty tx hw
    have hgl := arrow_blot_char_table ty tx hr.1 hr.2.1 hr.2.2
    refine ⟨hgl, fun hbuf => ?_⟩
    rw [renderTileStep_conn_write board p buf ty tx _ hw hgl, if_neg hbuf]

/-- Witness for C2: on `crossBoard`, tile `(0, 0)` has offset `(1, 1)`
(down-right); the computed connector glyph is `\` and it is written at
cell `(1, 1)` of the blank buffer. -/
theorem claim_c2_witness :
    arrow_blot_char 1 1
        = some (if (1 : Int) = 0 then '|' else if (1 : Int) = 0 then '-'
            else if (1 : Int) = 1 then '\\' else '/')
      ∧ renderTileStep crossBoard (0, 0) blankBuf
          (((0, 0) : Nat × Nat).1 * 2 + 1) (((0, 0) : Nat × Nat).2 * 2 + 1)
        = if (1 : Int) = 0 then '|' else if (1 : Int) = 0 then '-'
            else if (1 : Int) = 1 then '\\' else '/' := by
  have h := (claim_c2_connector_glyph crossBoard (0, 0) blankBuf).2 1 1
    (by decide)
  exact ⟨h.1, h.2 (by decide)⟩

/-- `renderTileStep_preserve_cell` with the cell given by coordinates. -/
theorem renderTileStep_preserve_xy (board : Board) (q : Nat × Nat)
    (b : ScreenBuffer) (cx cy : Int)
    (hglyph : ¬(cx = (q.1 : Int) * 2 ∧ cy = (q.2 : Int) * 2))
    (hc : connTarget board q ≠ some (cx, cy)) :
    renderTileStep board q b cx cy = b cx cy :=
  renderTileStep_preserve_cell board q b (cx, cy) hglyph hc

/-- The step at `p` leaves `p`'s own glyph at `p`'s glyph cell: the
connector write, when present, lands one unit away. -/
theorem renderTileStep_glyph_write (board : Board) (p : Nat × Nat)
    (b : ScreenBuffer) :
    renderTileStep board p b ((p.1 : Int) * 2) ((p.2 : Int) * 2)
      = blot_char_from_tile_type
          (board (p.2 : Int) (p.1 : Int)).tile_type := by
  rcases hw : tilePositionFromWind8
      (board (p.2 : Int) (p.1 : Int)).next_selection with _ | tp
  · simp only [renderTileStep, hw]
    exact setChar_same _ _ _ _
  · rcases ha : arrow_blot_char tp.1 tp.2 with _ | g
    · simp only [renderTileStep, hw, ha]
      exact setChar_same _ _ _ _
    · obtain ⟨h1, h2, h3⟩ := arrow_blot_char_range tp.1 tp.2 g ha
      have htarget : ¬((p.1 : Int) * 2 = (p.1 : Int) * 2 + tp.2 ∧
          (p.2 : Int) * 2 = (p.2 : Int) * 2 + tp.1) := by
        rintro ⟨ha1, ha2⟩
        exact h3 ⟨by omega, by omega⟩
      simp only [renderTileStep, hw, ha]
      rw [setChar_other _ _ _ _ _ _ htarget, setChar_same]

/-- Folding steps of tiles other than `p` leaves `p`'s glyph cell
unchanged: other tiles' glyph cells differ, and connector writes always
land on a cell with an odd coordinate. -/
theorem foldSteps_preserve_avoid (board : Board) (p : Nat × Nat) :
    ∀ (L : List (Nat × Nat)) (b : ScreenBuffer), p ∉ L →
      L.foldl (fun b' q => renderTileStep board q b') b
          ((p.1 : Int) * 2) ((p.2 : Int) * 2)
        = b ((p.1 : Int) * 2) ((p.2 : Int) * 2) := by
  intro L
  induction L with
  | nil => intro b _; rfl
  | cons q qs ih =>
    intro b hnmem
    have hglyph : ¬((p.1 : Int) * 2 = (q.1 : Int) * 2 ∧
        (p.2 : Int) * 2 = (q.2 : Int) * 2) := by
      rintro ⟨e1, e2⟩
      have hq : q = p := Prod.ext (by omega) (by omega)
      exact hnmem (hq ▸ List.mem_cons_self q qs)
    have hct : connTarget board q ≠ some ((p.1 : Int) * 2, (p.2 : Int) * 2) := by
      intro hc
      rcases connTarget_odd board q _ hc with h | h <;>
        rw [Int.odd_iff] at h <;> omega
    simp only [List.foldl_cons]
    rw [ih _ (fun hc => hnmem (List.mem_cons_of_mem q hc)),
      renderTileStep_preserve_xy board q b _ _ hglyph hct]

/-- C10: connector writes never overwrite a tile glyph cell — every
connector cell has at least one odd coordinate while glyph cells are
even-even — so after the board pass every tile's glyph cell holds that
tile's own glyph character. -/
theorem claim_c10_glyph_cells :
    (∀ (board : Board) (p : Nat × Nat) (cx cy : Int),
        connTarget board p = some (cx, cy) → Odd cx ∨ Odd cy)
    ∧ ∀ (W H : Nat) (board : Board) (buf : ScreenBuffer) (x y : Nat),
        x < W → y < H →
        renderBoard W H board buf ((x : Int) * 2) ((y : Int) * 2)
          = blot_char_from_tile_type
              (board (y : Int) (x : Int)).tile_type := by
  constructor
  · exact fun board p cx cy h => connTarget_odd board p (cx, cy) h
  · intro W H board buf x y hx hy
    have hm : (x, y) ∈ scanPositions W H :=
      (mem_scanPositions W H (x, y)).2 ⟨hx, hy⟩
    obtain ⟨s, t, hdec⟩ := List.append_of_mem hm
    have hnd : (s ++ (x, y) :: t).Nodup := hdec ▸ scanPositions_nodup W H
    obtain ⟨_, hcons, _⟩ := List.nodup_append.1 hnd
    obtain ⟨hxt, _⟩ := List.nodup_cons.1 hcons
    unfold renderBoard
    rw [hdec, List.foldl_append, List.foldl_cons]
    have hstep := renderTileStep_glyph_write board (x, y)
      (s.foldl (fun b' q => renderTileStep board q b') buf)
    exact (foldSteps_preserve_avoid board (x, y) t _ hxt).trans hstep

/-- Witness for C10 on `crossBoard`: tile `(0, 0)`'s connector targets
the odd-odd cell `(1, 1)`, and after rendering its glyph cell `(0, 0)`
still holds its glyph `p`. -/
theorem claim_c10_witness :
    (Odd (1 : Int) ∨ Odd (1 : Int)) ∧
      renderBoard 2 2 crossBoard blankBuf (((0 : Nat) : Int) * 2)
          (((0 : Nat) : Int) * 2)
        = blot_char_from_tile_type
            (crossBoard ((0 : Nat) : Int) ((0 : Nat) : Int)).tile_type :=
  ⟨claim_c10_glyph_cells.1 crossBoard (0, 0) 1 1 (by decide),
   claim_c10_glyph_cells.2 2 2 crossBoard blankBuf 0 0 (by norm_num)
     (by norm_num)⟩

/-!
## Input dispatcher (`run_app`, src/main.rs:405-534)

One iteration of the event loop, as a pure step function.  The external
`Game` is opaque: its commands are recorded in a call trace, and its two
queries (`improvement_choice_set` and the result of `drop_selection`)
are answered by an oracle — an arbitrary function of the trace, which
captures any deterministic engine behaviour.  The cursor position read
back with `terminal.get_cursor()` is the one `ui` set during the
preceding draw (src/main.rs:558): the active mode's stored position.
-/

/-- The engine commands `run_app` issues (src/main.rs:487-527 and 465). -/
inductive EngineCall
  | dropSelection
  | applyIncomingDamage
  | applyGravityAndRandomizeNewTiles
  | runEndOfTurnOnSpecials
  | selectTile (tp : Int × Int)
  | castAbility (slot : Nat)
  | chooseImprovements (idxs : List Nat)
deriving DecidableEq

/-- The slice of the engine's improvement-choice set `run_app` reads:
the length of the `ImprovementInfo` vector (src/main.rs:416-420) and
`num_to_choose` (src/main.rs:464). -/
structure ImprovementChoiceSet where
  numChoices : Nat
  num_to_choose : Nat
deriving DecidableEq

/-- The opaque engine, answering the two queries as a function of the
command history. -/
structure GameOracle where
  improvementChoiceSet : List EngineCall → Option ImprovementChoiceSet
  dropSelectionResult : List EngineCall → Bool

/-- The mutable state of `run_app` (src/main.rs:406-410), plus the
engine-call trace. -/
structure AppState where
  playing_cursor_position : Nat × Nat
  choosing_improvement_cursor_position : Nat × Nat
  improvement_choice_indeces : List Nat
  improvement_choice_selection_positions : List (Nat × Nat)
  trace : List EngineCall
deriving DecidableEq

/-- The initial state (src/main.rs:406-410). -/
def initialAppState : AppState :=
  { playing_cursor_position := (0, 0)
    choosing_improvement_cursor_position := (0, 1)
    improvement_choice_indeces := []
    improvement_choice_selection_positions := []
    trace := [] }

/-- The key events the loop distinguishes (src/main.rs:443-529);
`h/j/k/l` and the arrow keys coincide. -/
inductive Key
  | q
  | space
  | keyX
  | left
  | down
  | up
  | right
  | one
  | two
  | three
  | four
  | other
deriving DecidableEq

/-- `game_state` as recomputed each frame (src/main.rs:414-424). -/
def gameStateOf (o : GameOracle) (st : AppState) : GameState :=
  match o.improvementChoiceSet st.trace with
  | some set => GameState.choosingImprovement set.numChoices
  | none => GameState.playing

/-- `cursor_position` as selected each frame (src/main.rs:425-428); it
is also what `terminal.get_cursor()` returns after the draw. -/
def displayedCursor (o : GameOracle) (st : AppState) : Nat × Nat :=
  match gameStateOf o st with
  | GameState.playing => st.playing_cursor_position
  | GameState.choosingImprovement _ =>
      st.choosing_improvement_cursor_position

/-- The index search of the toggle loop (src/main.rs:450-459): the
position of the first occurrence of `target`. -/
def findToggleIdx : List Nat → Nat → Option Nat
  | [], _ => none
  | i :: is, t =>
    if i = t then some 0 else (findToggleIdx is t).map (· + 1)

/-- The chosen-indices list after one toggle (src/main.rs:449-463). -/
def toggledIndeces (idxs : List Nat) (target : Nat) : List Nat :=
  match findToggleIdx idxs target with
  | some k => idxs.eraseIdx k
  | none => idxs ++ [target]

/-- The paired selection-position list after one toggle
(src/main.rs:449-463). -/
def toggledPositions (idxs : List Nat) (poss : List (Nat × Nat))
    (target : Nat) (cpos : Nat × Nat) : List (Nat × Nat) :=
  match findToggleIdx idxs target with
  | some k => poss.eraseIdx k
  | none => poss ++ [cpos]

/-- The outcome of one loop iteration: `quit` models the `return Ok(())`
on `q`. -/
inductive StepResult
  | quit
  | cont (st : AppState)
deriving DecidableEq

/-- One iteration of the event loop of `run_app` (src/main.rs:413-533)
for one key event: re-derive the mode from the engine, dispatch the key.
The `move_cursor` calls never hit its `unreachable!` arm here (only
`Up`/`Down` are dispatched in choosing mode), so the `Option.none`
fallbacks keeping the state unchanged are dead code. -/
def appStep (W H : Nat) (o : GameOracle) (st : AppState) (k : Key) :
    StepResult :=
  let game_state := gameStateOf o st
  let cursor_pos := displayedCursor o st
  match o.improvementChoiceSet st.trace with
  | some set =>
    match k with
    | Key.q => StepResult.quit
    | Key.space =>
      let index_pressed :=
        improvement_choice_index_from_cursor_position cursor_pos
      let idxs := toggledIndeces st.improvement_choice_indeces index_pressed
      let poss := toggledPositions st.improvement_choice_indeces
        st.improvement_choice_selection_positions index_pressed cursor_pos
      if idxs.length = set.num_to_choose then
        StepResult.cont { st with
          improvement_choice_indeces := []
          improvement_choice_selection_positions := []
          choosing_improvement_cursor_position := (0, 1)
          trace := st.trace ++ [EngineCall.chooseImprovements idxs] }
      else
        StepResult.cont { st with
          improvement_choice_indeces := idxs
          improvement_choice_selection_positions := poss }
    | Key.down =>
      match move_cursor W H cursor_pos CursorMove.down game_state with
      | some p =>
        StepResult.cont { st with choosing_improvement_cursor_position := p }
      | none => StepResult.cont st
    | Key.up =>
      match move_cursor W H cursor_pos CursorMove.up game_state with
      | some p =>
        StepResult.cont { st with choosing_improvement_cursor_position := p }
      | none => StepResult.cont st
    | _ => StepResult.cont st
  | none =>
    match k with
    | Key.q => StepResult.quit
    | Key.space =>
      if o.dropSelectionResult st.trace then
        StepResult.cont { st with
          trace := st.trace ++
            [EngineCall.dropSelection,
             EngineCall.applyIncomingDamage,
             EngineCall.applyGravityAndRandomizeNewTiles,
             EngineCall.runEndOfTurnOnSpecials] }
      else
        StepResult.cont { st with
          trace := st.trace ++ [EngineCall.dropSelection] }
    | Key.keyX =>
      StepResult.cont { st with
        trace := st.trace ++
          [EngineCall.selectTile
            (tile_position_from_cursor_position cursor_pos)] }
    | Key.left =>
      match move_cursor W H cursor_pos CursorMove.left game_state with
      | some p => StepResult.cont { st with playing_cursor_position := p }
      | none => StepResult.cont st
    | Key.down =>
      match move_cursor W H cursor_pos CursorMove.down game_state with
      | some p => StepResult.cont { st with playing_cursor_position := p }
      | none => StepResult.cont st
    | Key.up =>
      match move_cursor W H cursor_pos CursorMove.up game_state with
      | some p => StepResult.cont { st with playing_cursor_position := p }
      | none => StepResult.cont st
    | Key.right =>
      match move_cursor W H cursor_pos CursorMove.right game_state with
      | some p => StepResult.cont { st with playing_cursor_position := p }
      | none => StepResult.cont st
    | Key.one =>
      StepResult.cont { st with
        trace := st.trace ++ [EngineCall.castAbility 0] }
    | Key.two =>
      StepResult.cont { st with
        trace := st.trace ++ [EngineCall.castAbility 1] }
    | Key.three =>
      StepResult.cont { st with
        trace := st.trace ++ [EngineCall.castAbility 2] }
    | Key.four =>
      StepResult.cont { st with
        trace := st.trace ++ [EngineCall.castAbility 3] }
    | Key.other => StepResult.cont st

/-- A sequence of loop iterations, stopping at `quit`. -/
def stepMany (W H : Nat) (o : GameOracle) (st : AppState) :
    List Key → StepResult
  | [] => StepResult.cont st
  | k :: ks =>
    match appStep W H o st k with
    | StepResult.quit => StepResult.quit
    | StepResult.cont st' => stepMany W H o st' ks

/-- Every prefix state along the key sequence is in playing mode (the
oracle reports no pending improvement-choice set). -/
def playingAll (W H : Nat) (o : GameOracle) (st : AppState) :
    List Key → Bool
  | [] => true
  | k :: ks =>
    (o.improvementChoiceSet st.trace = none : Bool) &&
      match appStep W H o st k with
      | StepResult.quit => true
      | StepResult.cont st' => playingAll W H o st' ks

/-- C7: with no pending improvement-choice set, the confirm key commits
the selection (`drop_selection`); if tiles were consumed, exactly the
three post-selection effects follow, once each, in order —
incoming damage, then gravity/refill, then end-of-turn specials — and
otherwise none of them runs. -/
theorem claim_c7_space_effects (W H : Nat) (o : GameOracle) (st : AppState)
    (hmode : o.improvementChoiceSet st.trace = none) :
    appStep W H o st Key.space = StepResult.cont { st with
      trace := st.trace ++ EngineCall.dropSelection ::
        (if o.dropSelectionResult st.trace then
          [EngineCall.applyIncomingDamage,
           EngineCall.applyGravityAndRandomizeNewTiles,
           EngineCall.runEndOfTurnOnSpecials]
        else []) } := by
  by_cases hdrop : o.dropSelectionResult st.trace <;>
    simp [appStep, hmode, hdrop]

/-- The always-playing oracle: no pending choice set, every selection
commit consumes tiles. -/
def playOracle : GameOracle :=
  ⟨fun _ => none, fun _ => true⟩

/-- Witness for C7: from the initial state, pressing space appends the
four engine calls in order. -/
theorem claim_c7_witness :
    appStep 8 6 playOracle initialAppState Key.space
      = StepResult.cont { initialAppState with
          trace := initialAppState.trace ++ EngineCall.dropSelection ::
            (if playOracle.dropSelectionResult initialAppState.trace then
              [EngineCall.applyIncomingDamage,
               EngineCall.applyGravityAndRandomizeNewTiles,
               EngineCall.runEndOfTurnOnSpecials]
            else []) } :=
  claim_c7_space_effects 8 6 playOracle initialAppState rfl

/-- A committing confirm press in choosing mode clears the accumulator
and resets the choosing cursor to `(0, 1)` (src/main.rs:464-469). -/
theorem appStep_commit_resets (W H : Nat) (o : GameOracle) (st : AppState)
    (set : ImprovementChoiceSet)
    (hset : o.improvementChoiceSet st.trace = some set)
    (hlen : (toggledIndeces st.improvement_choice_indeces
        (improvement_choice_index_from_cursor_position
          (displayedCursor o st))).length = set.num_to_choose) :
    appStep W H o st Key.space = StepResult.cont { st with
      improvement_choice_indeces := []
      improvement_choice_selection_positions := []
      choosing_improvement_cursor_position := (0, 1)
      trace := st.trace ++ [EngineCall.chooseImprovements
        (toggledIndeces st.improvement_choice_indeces
          (improvement_choice_index_from_cursor_position
            (displayedCursor o st)))] } := by
  simp [appStep, hset, hlen]

/-- A playing-mode step never touches the stored choosing-mode
cursor. -/
theorem appStep_playing_preserves_choosing (W H : Nat) (o : GameOracle)
    (st : AppState) (k : Key) (st2 : AppState)
    (hmode : o.improvementChoiceSet st.trace = none)
    (hstep : appStep W H o st k = StepResult.cont st2) :
    st2.choosing_improvement_cursor_position
      = st.choosing_improvement_cursor_position := by
  cases k <;> simp only [appStep, hmode] at hstep <;>
    first
      | exact StepResult.noConfusion hstep
      | (cases hstep; rfl)
      | (split at hstep <;> (cases hstep; rfl))

/-- Over a run of playing-mode steps the stored choosing-mode cursor is
unchanged. -/
theorem playingAll_preserves_choosing (W H : Nat) (o : GameOracle) :
    ∀ (keys : List Key) (s s2 : AppState),
      playingAll W H o s keys = true →
      stepMany W H o s keys = StepResult.cont s2 →
      s2.choosing_improvement_cursor_position
        = s.choosing_improvement_cursor_position := by
  intro keys
  induction keys with
  | nil =>
    intro s s2 _ hstep
    simp only [stepMany, StepResult.cont.injEq] at hstep
    rw [hstep]
  | cons k ks ih =>
    intro s s2 hall hstep
    simp only [playingAll, Bool.and_eq_true, decide_eq_true_eq] at hall
    obtain ⟨hmode, hrest⟩ := hall
    simp only [stepMany] at hstep
    rcases ha : appStep W H o s k with _ | s1
    · rw [ha] at hstep
      exact StepResult.noConfusion hstep
    · simp only [ha] at hstep hrest
      rw [ih s1 s2 hrest hstep,
        appStep_playing_preserves_choosing W H o s k s1 hmode ha]

/-- C9: when a confirm press completes a choice set, the choosing cursor
is reset to `(0, 1)`; it stays there across any run of playing-mode
steps, so when the next improvement-choice set appears the displayed
cursor is `(0, 1)` — the first option's row — regardless of where the
cursor was inside the completed set. -/
theorem claim_c9_new_set_starts_at_first_option (W H : Nat)
    (o : GameOracle) (st : AppState) (set : ImprovementChoiceSet)
    (st1 : AppState)
    (hset : o.improvementChoiceSet st.trace = some set)
    (hcommit : (toggledIndeces st.improvement_choice_indeces
        (improvement_choice_index_from_cursor_position
          (displayedCursor o st))).length = set.num_to_choose)
    (hst1 : appStep W H o st Key.space = StepResult.cont st1) :
    st1.choosing_improvement_cursor_position = (0, 1)
    ∧ ∀ (keys : List Key) (st2 : AppState),
        playingAll W H o st1 keys = true →
        stepMany W H o st1 keys = StepResult.cont st2 →
        st2.choosing_improvement_cursor_position = (0, 1)
        ∧ ∀ n, gameStateOf o st2 = GameState.choosingImprovement n →
            displayedCursor o st2 = (0, 1) := by
  rw [appStep_commit_resets W H o st set hset hcommit,
    StepResult.cont.injEq] at hst1
  have h1 : st1.choosing_improvement_cursor_position = (0, 1) := by
    rw [← hst1]
  refine ⟨h1, fun keys st2 hall hstep => ?_⟩
  have h2 : st2.choosing_improvement_cursor_position = (0, 1) :=
    (playingAll_preserves_choosing W H o keys st1 st2 hall hstep).trans h1
  refine ⟨h2, fun n hgs => ?_⟩
  rw [displayedCursor, hgs]
  exact h2

/-- An engine that offers a single 1-of-1 improvement choice at start-up
and none afterwards. -/
def c9Oracle : GameOracle :=
  ⟨fun tr => if tr = [] then some ⟨1, 1⟩ else none, fun _ => false⟩

/-- The state after committing the start-up choice of `c9Oracle`. -/
def c9St1 : AppState :=
  { playing_cursor_position := (0, 0)
    choosing_improvement_cursor_position := (0, 1)
    improvement_choice_indeces := []
    improvement_choice_selection_positions := []
    trace := [EngineCall.chooseImprovements [0]] }

/-- `c9St1` after one playing-mode `Down` step on the 8×6 board. -/
def c9St2 : AppState :=
  { c9St1 with playing_cursor_position := (0, 2) }

/-- Witness for C9: committing the start-up choice resets the choosing
cursor to `(0, 1)`, and it is still `(0, 1)` after a playing-mode
move. -/
theorem claim_c9_witness :
    c9St1.choosing_improvement_cursor_position = (0, 1)
    ∧ (c9St2.choosing_improvement_cursor_position = (0, 1)
       ∧ ∀ n, gameStateOf c9Oracle c9St2 = GameState.choosingImprovement n →
          displayedCursor c9Oracle c9St2 = (0, 1)) := by
  have h := claim_c9_new_set_starts_at_first_option 8 6 c9Oracle
    initialAppState ⟨1, 1⟩ c9St1 (by decide) (by decide) (by decide)
  exact ⟨h.1, h.2 [Key.down] c9St2 (by decide) (by decide)⟩

theorem findToggleIdx_eq_none (l : List Nat) (t : Nat) :
    findToggleIdx l t = none ↔ t ∉ l := by
  induction l with
  | nil => simp [findToggleIdx]
  | cons i is ih =>
    by_cases h : i = t
    · subst h
      simp [findToggleIdx]
    · rw [show findToggleIdx (i :: is) t
          = (findToggleIdx is t).map (· + 1) from by
            simp [findToggleIdx, h]]
      rw [Option.map_eq_none', ih, List.mem_cons]
      constructor
      · rintro hnot (hti | hti)
        · exact h hti.symm
        · exact hnot hti
      · intro hnot hmem
        exact hnot (Or.inr hmem)

theorem findToggleIdx_some (l : List Nat) (t : Nat) :
    ∀ k, findToggleIdx l t = some k → l[k]? = some t ∧ k < l.length := by
  induction l with
  | nil => intro k h; exact Option.noConfusion h
  | cons i is ih =>
    intro k h
    by_cases hi : i = t
    · subst hi
      rw [show findToggleIdx (i :: is) i = some 0 from by
        simp [findToggleIdx]] at h
      simp only [Option.some.injEq] at h
      subst h
      simp
    · rw [show findToggleIdx (i :: is) t
          = (findToggleIdx is t).map (· + 1) from by
            simp [findToggleIdx, hi]] at h
      rw [Option.map_eq_some'] at h
      obtain ⟨k1, hk1, hk⟩ := h
      obtain ⟨hget, hlt⟩ := ih k1 hk1
      subst hk
      simpa using ⟨hget, hlt⟩

theorem findToggleIdx_eraseIdx_not_mem (l : List Nat) (t : Nat) :
    ∀ k, findToggleIdx l t = some k → l.count t ≤ 1 →
      t ∉ l.eraseIdx k := by
  induction l with
  | nil => intro k h; exact Option.noConfusion h
  | cons i is ih =>
    intro k h hcount
    by_cases hi : i = t
    · subst hi
      rw [show findToggleIdx (i :: is) i = some 0 from by
        simp [findToggleIdx]] at h
      simp only [Option.some.injEq] at h
      subst h
      simp only [List.eraseIdx_cons_zero]
      rw [List.count_cons_self] at hcount
      exact List.count_eq_zero.1 (by omega)
    · rw [show findToggleIdx (i :: is) t
          = (findToggleIdx is t).map (· + 1) from by
            simp [findToggleIdx, hi]] at h
      rw [Option.map_eq_some'] at h
      obtain ⟨k1, hk1, hk⟩ := h
      subst hk
      simp only [List.eraseIdx_cons_succ, List.mem_cons]
      rintro (hti | hti)
      · exact hi hti.symm
      · have hcount2 : is.count t ≤ 1 := by
          rw [List.count_cons] at hcount
          omega
        exact ih k1 hk1 hcount2 hti

theorem findToggleIdx_append_not_mem (l : List Nat) (t : Nat)
    (h : t ∉ l) : findToggleIdx (l ++ [t]) t = some l.length := by
  induction l with
  | nil => simp [findToggleIdx]
  | cons i is ih =>
    have hi : i ≠ t := fun hc => h (hc ▸ List.mem_cons_self i is)
    rw [List.cons_append,
      show findToggleIdx (i :: (is ++ [t])) t
          = (findToggleIdx (is ++ [t]) t).map (· + 1) from by
        simp [findToggleIdx, hi],
      ih (fun hc => h (List.mem_cons_of_mem i hc))]
    rfl

theorem eraseIdx_append_len {α : Type} (l : List α) (a : α) :
    (l ++ [a]).eraseIdx l.length = l := by
  rw [List.eraseIdx_append_of_length_le (Nat.le_refl l.length),
    Nat.sub_self]
  simp

theorem zip_eraseIdx {α β : Type} (l1 : List α) (l2 : List β) :
    ∀ k, l1.length = l2.length →
      (l1.zip l2).eraseIdx k = (l1.eraseIdx k).zip (l2.eraseIdx k) := by
  induction l1 generalizing l2 with
  | nil => intro k h; simp
  | cons a as ih =>
    intro k h
    cases l2 with
    | nil => simp at h
    | cons b bs =>
      cases k with
      | zero => simp
      | succ k1 =>
        simp only [List.zip_cons_cons, List.eraseIdx_cons_succ]
        rw [ih bs k1 (by simpa using h)]

theorem perm_eraseIdx_append {α : Type} (l : List α) :
    ∀ (k : Nat) (a : α), l[k]? = some a →
      (l.eraseIdx k ++ [a]).Perm l := by
  induction l with
  | nil => intro k a h; simp at h
  | cons b bs ih =>
    intro k a h
    cases k with
    | zero =>
      simp only [List.getElem?_cons_zero, Option.some.injEq] at h
      subst h
      simp only [List.eraseIdx_cons_zero]
      exact List.perm_append_singleton b bs
    | succ k1 =>
      simp only [List.getElem?_cons_succ] at h
      simp only [List.eraseIdx_cons_succ, List.cons_append]
      exact List.Perm.cons b (ih k1 a h)

/-- The pure accumulator fact behind C8: toggling the same index twice
restores the lengths of both lists and the (unordered) collection of
index/coordinate pairs, provided the accumulator holds the toggled index
at most once and pairs it with the current cursor position. -/
theorem toggle_twice_restores (I : List Nat) (P : List (Nat × Nat))
    (tgt : Nat) (cp : Nat × Nat)
    (hpair : I.length = P.length)
    (hcount : I.count tgt ≤ 1)
    (hpos : ∀ k, findToggleIdx I tgt = some k → P[k]? = some cp) :
    (toggledIndeces (toggledIndeces I tgt) tgt).length = I.length
    ∧ (toggledPositions (toggledIndeces I tgt)
        (toggledPositions I P tgt cp) tgt cp).length = P.length
    ∧ ((toggledIndeces (toggledIndeces I tgt) tgt).zip
        (toggledPositions (toggledIndeces I tgt)
          (toggledPositions I P tgt cp) tgt cp)).Perm (I.zip P) := by
  rcases hf : findToggleIdx I tgt with _ | k
  · have hnot : tgt ∉ I := (findToggleIdx_eq_none I tgt).1 hf
    have h1 : toggledIndeces I tgt = I ++ [tgt] := by
      simp [toggledIndeces, hf]
    have h1p : toggledPositions I P tgt cp = P ++ [cp] := by
      simp [toggledPositions, hf]
    have hf2 : findToggleIdx (I ++ [tgt]) tgt = some I.length :=
      findToggleIdx_append_not_mem I tgt hnot
    have h2 : toggledIndeces (I ++ [tgt]) tgt = I := by
      simp only [toggledIndeces, hf2]
      exact eraseIdx_append_len I tgt
    have h2p : toggledPositions (I ++ [tgt]) (P ++ [cp]) tgt cp = P := by
      simp only [toggledPositions, hf2]
      rw [hpair]
      exact eraseIdx_append_len P cp
    rw [h1, h1p, h2, h2p]
    exact ⟨rfl, rfl, List.Perm.refl _⟩
  · obtain ⟨hget, hklt⟩ := findToggleIdx_some I tgt k hf
    have hpk : P[k]? = some cp := hpos k hf
    have hkP : k < P.length := hpair ▸ hklt
    have hnot2 : tgt ∉ I.eraseIdx k :=
      findToggleIdx_eraseIdx_not_mem I tgt k hf hcount
    have h1 : toggledIndeces I tgt = I.eraseIdx k := by
      simp [toggledIndeces, hf]
    have h1p : toggledPositions I P tgt cp = P.eraseIdx k := by
      simp [toggledPositions, hf]
    have hf2 : findToggleIdx (I.eraseIdx k) tgt = none :=
      (findToggleIdx_eq_none _ _).2 hnot2
    have h2 : toggledIndeces (I.eraseIdx k) tgt = I.eraseIdx k ++ [tgt] := by
      simp [toggledIndeces, hf2]
    have h2p : toggledPositions (I.eraseIdx k) (P.eraseIdx k) tgt cp
        = P.eraseIdx k ++ [cp] := by
      simp [toggledPositions, hf2]
    rw [h1, h1p, h2, h2p]
    refine ⟨?_, ?_, ?_⟩
    · rw [List.length_append, List.length_eraseIdx_of_lt hklt]
      simp only [List.length_cons, List.length_nil]
      omega
    · rw [List.length_append, List.length_eraseIdx_of_lt hkP]
      simp only [List.length_cons, List.length_nil]
      omega
    · have hzip : (I.eraseIdx k ++ [tgt]).zip (P.eraseIdx k ++ [cp])
          = (I.zip P).eraseIdx k ++ [(tgt, cp)] := by
        rw [List.zip_append
            (by rw [List.length_eraseIdx_of_lt hklt,
              List.length_eraseIdx_of_lt hkP, hpair]),
          zip_eraseIdx I P k hpair]
        rfl
      rw [hzip]
      exact perm_eraseIdx_append (I.zip P) k (tgt, cp)
        (List.getElem?_zip_eq_some.2 ⟨hget, hpk⟩)

/-- A non-committing confirm press in choosing mode toggles the hovered
index in the accumulator and changes nothing else (src/main.rs:445-463). -/
theorem appStep_toggle_no_commit (W H : Nat) (o : GameOracle)
    (st : AppState) (set : ImprovementChoiceSet)
    (hset : o.improvementChoiceSet st.trace = some set)
    (hlen : (toggledIndeces st.improvement_choice_indeces
        (improvement_choice_index_from_cursor_position
          (displayedCursor o st))).length ≠ set.num_to_choose) :
    appStep W H o st Key.space = StepResult.cont { st with
      improvement_choice_indeces :=
        toggledIndeces st.improvement_choice_indeces
          (improvement_choice_index_from_cursor_position
            (displayedCursor o st))
      improvement_choice_selection_positions :=
        toggledPositions st.improvement_choice_indeces
          st.improvement_choice_selection_positions
          (improvement_choice_index_from_cursor_position
            (displayedCursor o st))
          (displayedCursor o st) } := by
  simp [appStep, hset, hlen]

/-- C8 (amended): in choosing mode, two successive confirm presses on
the same hovered index restore the accumulator's two lists' lengths and
their paired contents as an unordered collection — provided neither
press reaches the required pick count (which would commit and clear the
accumulator, see the counterexample), the index occurs in the
accumulator at most once, and its stored coordinate is the hovered
cursor position (both invariants of reachable states). -/
theorem claim_c8_toggle_twice (W H : Nat) (o : GameOracle)
    (st : AppState) (set : ImprovementChoiceSet) (tgt : Nat)
    (htgt : tgt = improvement_choice_index_from_cursor_position
      (displayedCursor o st))
    (hset : o.improvementChoiceSet st.trace = some set)
    (hpair : st.improvement_choice_indeces.length
      = st.improvement_choice_selection_positions.length)
    (hcount : st.improvement_choice_indeces.count tgt ≤ 1)
    (hpos : ∀ k, findToggleIdx st.improvement_choice_indeces tgt = some k →
      st.improvement_choice_selection_positions[k]?
        = some (displayedCursor o st))
    (hlen1 : (toggledIndeces st.improvement_choice_indeces tgt).length
      ≠ set.num_to_choose)
    (hlen2 : (toggledIndeces
        (toggledIndeces st.improvement_choice_indeces tgt) tgt).length
      ≠ set.num_to_choose) :
    ∀ st2 : AppState,
      stepMany W H o st [Key.space, Key.space] = StepResult.cont st2 →
      st2.improvement_choice_indeces.length
          = st.improvement_choice_indeces.length
      ∧ st2.improvement_choice_selection_positions.length
          = st.improvement_choice_selection_positions.length
      ∧ (st2.improvement_choice_indeces.zip
            st2.improvement_choice_selection_positions).Perm
          (st.improvement_choice_indeces.zip
            st.improvement_choice_selection_positions) := by
  subst htgt
  intro st2 hsteps
  have h1 := appStep_toggle_no_commit W H o st set hset hlen1
  have hset1 : o.improvementChoiceSet ({ st with
      improvement_choice_indeces :=
        toggledIndeces st.improvement_choice_indeces
          (improvement_choice_index_from_cursor_position
            (displayedCursor o st))
      improvement_choice_selection_positions :=
        toggledPositions st.improvement_choice_indeces
          st.improvement_choice_selection_positions
          (improvement_choice_index_from_cursor_position
            (displayedCursor o st))
          (displayedCursor o st) } : AppState).trace = some set := hset
  have hcur : displayedCursor o ({ st with
      improvement_choice_indeces :=
        toggledIndeces st.improvement_choice_indeces
          (improvement_choice_index_from_cursor_position
            (displayedCursor o st))
      improvement_choice_selection_positions :=
        toggledPositions st.improvement_choice_indeces
          st.improvement_choice_selection_positions
          (improvement_choice_index_from_cursor_position
            (displayedCursor o st))
          (displayedCursor o st) } : AppState) = displayedCursor o st := by
    simp only [displayedCursor, gameStateOf, hset1, hset]
  have h2 := appStep_toggle_no_commit W H o
    ({ st with
      improvement_choice_indeces :=
        toggledIndeces st.improvement_choice_indeces
          (improvement_choice_index_from_cursor_position
            (displayedCursor o st))
      improvement_choice_selection_positions :=
        toggledPositions st.improvement_choice_indeces
          st.improvement_choice_selection_positions
          (improvement_choice_index_from_cursor_position
            (displayedCursor o st))
          (displayedCursor o st) } : AppState) set hset1
    (by rw [hcur]; exact hlen2)
  rw [hcur] at h2
  simp only [stepMany, h1, h2, StepResult.cont.injEq] at hsteps
  subst hsteps
  exact toggle_twice_restores st.improvement_choice_indeces
    st.improvement_choice_selection_positions
    (improvement_choice_index_from_cursor_position (displayedCursor o st))
    (displayedCursor o st) hpair hcount hpos

/-- An engine with a permanently pending 2-of-2 improvement choice. -/
def c8Oracle : GameOracle :=
  ⟨fun _ => some ⟨2, 2⟩, fun _ => false⟩

/-- A reachable choosing-mode state: index 5 already chosen (hovered
row (0, 6)), cursor hovering index 0. -/
def c8StartState : AppState :=
  { playing_cursor_position := (0, 0)
    choosing_improvement_cursor_position := (0, 1)
    improvement_choice_indeces := [5]
    improvement_choice_selection_positions := [(0, 6)]
    trace := [] }

/-- `c8StartState` after two confirm presses: the first press completed
the 2-pick set, committing and clearing the accumulator; the second
started a fresh selection `[0]`. -/
def c8EndState : AppState :=
  { playing_cursor_position := (0, 0)
    choosing_improvement_cursor_position := (0, 1)
    improvement_choice_indeces := [0]
    improvement_choice_selection_positions := [(0, 1)]
    trace := [EngineCall.chooseImprovements [5, 0]] }

/-- Counterexample to C8 as stated: from `c8StartState` (accumulator
`[5]`, required picks 2), toggling index 0 twice in succession does NOT
restore the accumulator — the first toggle reaches the required count,
which commits and clears it, so the run ends with `[0]`, not `[5]`. -/
theorem claim_c8_counterexample :
    stepMany 8 6 c8Oracle c8StartState [Key.space, Key.space]
        = StepResult.cont c8EndState
      ∧ ¬ ((c8EndState.improvement_choice_indeces.zip
            c8EndState.improvement_choice_selection_positions).Perm
          (c8StartState.improvement_choice_indeces.zip
            c8StartState.improvement_choice_selection_positions))
      ∧ c8EndState.improvement_choice_indeces
          ≠ c8StartState.improvement_choice_indeces :=
  ⟨by decide, by decide, by decide⟩

/-- An engine with a permanently pending 3-of-3 improvement choice. -/
def c8WOracle : GameOracle :=
  ⟨fun _ => some ⟨3, 3⟩, fun _ => false⟩

/-- Witness for the amended C8: from the empty accumulator with 3 picks
required, toggling index 0 twice restores the accumulator exactly. -/
theorem claim_c8_witness :
    initialAppState.improvement_choice_indeces.length
        = initialAppState.improvement_choice_indeces.length
      ∧ initialAppState.improvement_choice_selection_positions.length
          = initialAppState.improvement_choice_selection_positions.length
      ∧ (initialAppState.improvement_choice_indeces.zip
            initialAppState.improvement_choice_selection_positions).Perm
          (initialAppState.improvement_choice_indeces.zip
            initialAppState.improvement_choice_selection_positions) :=
  claim_c8_toggle_twice 8 6 c8WOracle initialAppState ⟨3, 3⟩ 0
    (by decide) (by decide) rfl (by decide)
    (fun _ h => Option.noConfusion h) (by decide) (by decide)
    initialAppState (by decide)
